import Mathlib

/-!
Shallow embedding of the hypernonsense LSH library
(src/vector.rs, src/hyperindex.rs, src/multiindex.rs).

Modelling conventions:
* `f32` values are modelled as `ℚ`.  All claims here concern structural
  behaviour (lengths, membership, ordering, control flow), not rounding;
  the concrete inputs used in witnesses/counterexamples are exactly
  representable in `f32`, so `ℚ` evaluation agrees with the float code.
* A Rust panic (the `assert_eq!` in `dot`) is modelled as `none` of an
  `Option`-returning function; `some` means the call completes normally.
* `HashMap<BitVec, Vec<K>>` is modelled as an association list with
  distinct keys (insertion order); all properties proved about it
  (sums, membership, min/max) are independent of iteration order.
* `HashSet<K>` iteration order is nondeterministic in Rust, so functions
  consuming a set are parameterised by an arbitrary duplicate-free
  enumeration of it, and theorems quantify over all such enumerations.
* The random number generator is abstracted: `HyperIndex::new` is
  modelled as taking the list of generated hyperplanes directly
  (`random_unit_vector` always returns a vector of the requested
  dimension, which appears as a hypothesis where needed).
-/

namespace Hypernonsense

/-- A vector of f32 components, modelled as a list of rationals. -/
abbrev Vec := List ℚ

/-- The accumulation loop of `dot` in src/vector.rs: `acc += a[i] * b[i]`. -/
def dotVal (a b : Vec) : ℚ :=
  (a.zip b).foldl (fun acc p => acc + p.1 * p.2) 0

/-- `dot` from src/vector.rs: `assert_eq!(a.len(), b.len())` then the sum of
elementwise products.  The assert panic is modelled as `none`. -/
def dot (a b : Vec) : Option ℚ :=
  if a.length = b.length then some (dotVal a b) else none

/-- `modified_cosine_distance` from src/vector.rs:
`(2 - (dot(a,b) + 1)).max(0)`. -/
def modified_cosine_distance (a b : Vec) : Option ℚ :=
  (dot a b).map (fun d => max (2 - (d + 1)) 0)

/-- `HyperIndex<K>` from src/hyperindex.rs.  `groups` models the
`HashMap<BitVec, Vec<K>>` as an association list with distinct keys. -/
structure HyperIndex (K : Type) where
  planes : List Vec
  groups : List (List Bool × List K)
  dims : ℕ

/-- `HyperIndex::new`: fresh index with the generated hyperplanes and an
empty bucket map (the rng is abstracted into the `planes` argument). -/
def HyperIndex.new (planes : List Vec) (dims : ℕ) : HyperIndex K :=
  { planes := planes, groups := [], dims := dims }

/-- `HyperIndex::key`: one bit per hyperplane, `dot(plane, vector) > 0`;
a panic in any `dot` call (length mismatch) aborts the whole call. -/
def HyperIndex.key (idx : HyperIndex K) (v : Vec) : Option (List Bool) :=
  idx.planes.mapM (fun p => (dot p v).map (fun d => decide (0 < d)))

/-- The `groups.entry(bits).or_insert(Vec::new()).push(key)` operation of
`HyperIndex::add`: append to the existing bucket, or create a fresh one. -/
def insertGroup (k : K) (bits : List Bool) :
    List (List Bool × List K) → List (List Bool × List K)
  | [] => [(bits, [k])]
  | (b, ks) :: rest =>
    if b = bits then (b, ks ++ [k]) :: rest
    else (b, ks) :: insertGroup k bits rest

/-- `HyperIndex::add`: compute the key then push the item into its bucket. -/
def HyperIndex.add (idx : HyperIndex K) (k : K) (v : Vec) :
    Option (HyperIndex K) :=
  (idx.key v).map fun bits => { idx with groups := insertGroup k bits idx.groups }

/-- `HyperIndex::group`: bucket lookup by key. -/
def HyperIndex.group (idx : HyperIndex K) (key : List Bool) : Option (List K) :=
  (idx.groups.find? (fun p => p.1 == key)).map Prod.snd

/-- `HyperIndex::stats`: (min, average, max) bucket occupancy over all map
entries; min/max default to 0 on an empty map.  (In Rust the average of an
empty map is `0.0/0.0 = NaN`; in `ℚ` division by zero yields 0.  Every
claim involving `stats` only evaluates it on non-empty maps.) -/
def HyperIndex.stats (idx : HyperIndex K) : ℕ × ℚ × ℕ :=
  ((idx.groups.map (fun p => p.2.length)).min?.getD 0,
   ((idx.groups.map (fun p => (p.2.length : ℚ))).sum) / (idx.groups.length : ℚ),
   (idx.groups.map (fun p => p.2.length)).max?.getD 0)

/-- A sequence of `add` calls (stops with `none` at the first panic). -/
def addAll (idx : HyperIndex K) : List (K × Vec) → Option (HyperIndex K)
  | [] => some idx
  | (k, v) :: rest => (idx.add k v).bind (fun idx2 => addAll idx2 rest)

/-- Total number of stored items: the sum of all bucket lengths. -/
def sumSizes (idx : HyperIndex K) : ℕ :=
  (idx.groups.map (fun p => p.2.length)).sum

/-- `MultiIndex<K>` from src/multiindex.rs: a list of independent
`HyperIndex` instances. -/
structure MultiIndex (K : Type) where
  indices : List (HyperIndex K)

/-- `MultiIndex::vary_key`: the key itself followed by, for each bit
position `i`, a copy with bit `i` flipped.  (The Rust function pairs each
varied key with its owning index; the index component is dropped here as
it is the same for all entries.) -/
def vary_key (key : List Bool) : List (List Bool) :=
  key :: (List.range key.length).map (fun i => key.set i (! key.getD i false))

/-- The multiset of candidate item keys collected by
`MultiIndex::nearest_points_set` before `HashSet` collection: for each
sub-index, for each varied key of the point's exact key, the contents of
that bucket (absent buckets contribute nothing).  A panic in any
sub-index's `key` call is the whole call panicking (`none`). -/
def MultiIndex.candidates [DecidableEq K] (m : MultiIndex K) (point : Vec) :
    Option (List K) :=
  (m.indices.mapM (fun (idx : HyperIndex K) =>
      (idx.key point).map (fun kb =>
        ((vary_key kb).map (fun vk => (idx.group vk).getD [])).flatten))).map
    List.flatten

/-- `MultiIndex::nearest_points_set`: the candidates deduplicated into a
set. -/
def MultiIndex.nearest_points_set [DecidableEq K] (m : MultiIndex K)
    (point : Vec) : Option (Finset K) :=
  (m.candidates point).map List.toFinset

/-- The deterministic tail of `MultiIndex::nearest`, applied to one
enumeration `enum` of the candidate `HashSet` (Rust iterates the set in an
unspecified order): score every candidate with `get_dist`, sort ascending
by distance, truncate to `count`.  `DistanceNode` is modelled as a
(key, distance) pair; `sort_unstable` uses `DistanceNode`'s `Ord`, which
compares distances only. -/
def nearestOfEnum (point : Vec) (count : ℕ) (get_dist : Vec → K → ℚ)
    (enum : List K) : List (K × ℚ) :=
  (List.insertionSort (fun a b => a.2 ≤ b.2)
      (enum.map (fun k => (k, get_dist point k)))).take count

/-- An enumeration is a valid iteration of the candidate `HashSet` when it
is duplicate-free and has exactly the candidates as members. -/
def IsEnumOf (enum cl : List K) : Prop :=
  enum.Nodup ∧ ∀ k, k ∈ enum ↔ k ∈ cl

/-- The search loop of `MultiIndex::autotune_planes` (`for planes in
initial..255`), over the list `ps` of remaining candidate plane counts.
The per-candidate measured average occupancy is abstracted as `avgOf`
(each candidate builds a fresh randomized index over the sample vectors;
any one run realises some such function).  `best`/`bestAvg` are the
`best_plane_count`/`best_group_avg` accumulators; `bestAvg = none` models
the initial `f32::MAX` (every measured average compares below it). -/
def autotuneFrom (avgOf : ℕ → ℚ) (group_size : ℚ) :
    List ℕ → ℕ → Option ℚ → ℕ
  | [], best, _ => best
  | p :: rest, best, bestAvg =>
    let avg := avgOf p
    let improves : Bool :=
      (match bestAvg with
       | none => true
       | some b => decide (avg < b)) && decide (group_size < avg)
    let best2 := if improves then p else best
    let bestAvg2 := if improves then some avg else bestAvg
    if avg < group_size then best2
    else autotuneFrom avgOf group_size rest best2 bestAvg2

/-- `MultiIndex::autotune_planes` after the initial estimate: the loop
runs over plane counts `initial..255` (255 exclusive). -/
def autotune_planes (avgOf : ℕ → ℚ) (group_size : ℚ) (initial : ℕ) : ℕ :=
  autotuneFrom avgOf group_size (List.range' initial (255 - initial)) 0 none

/-- Modelled from the spec: the claimed return rule of `autotune_planes`,
identical to `autotuneFrom` except that it "returns immediately once a
candidate's average occupancy drops TO OR BELOW target" — i.e. the early
return fires on `avg ≤ group_size` instead of the code's `avg <
group_size`. -/
def autotuneFromSpec (avgOf : ℕ → ℚ) (group_size : ℚ) :
    List ℕ → ℕ → Option ℚ → ℕ
  | [], best, _ => best
  | p :: rest, best, bestAvg =>
    let avg := avgOf p
    let improves : Bool :=
      (match bestAvg with
       | none => true
       | some b => decide (avg < b)) && decide (group_size < avg)
    let best2 := if improves then p else best
    let bestAvg2 := if improves then some avg else bestAvg
    if avg ≤ group_size then best2
    else autotuneFromSpec avgOf group_size rest best2 bestAvg2

/-- Modelled from the spec: `autotune_planes` with the spec's
"to or below" early-return rule. -/
def autotune_planesSpec (avgOf : ℕ → ℚ) (group_size : ℚ) (initial : ℕ) : ℕ :=
  autotuneFromSpec avgOf group_size (List.range' initial (255 - initial)) 0 none

/-- The tracking of the best above-target candidate alone (no early
return): over a list of candidates, keep the earliest candidate with the
strictly smallest measured average among those strictly above target. -/
def pickBest (avgOf : ℕ → ℚ) (group_size : ℚ) :
    List ℕ → ℕ → Option ℚ → ℕ
  | [], best, _ => best
  | p :: rest, best, bestAvg =>
    let avg := avgOf p
    let improves : Bool :=
      (match bestAvg with
       | none => true
       | some b => decide (avg < b)) && decide (group_size < avg)
    if improves then pickBest avgOf group_size rest p (some avg)
    else pickBest avgOf group_size rest best bestAvg

/-- Hamming distance between two bit vectors of equal length: the number
of positions at which they differ (positions beyond the shorter list are
ignored; all uses are at equal lengths). -/
def hammingDist (a b : List Bool) : ℕ :=
  ((a.zip b).filter (fun p => ! (p.1 == p.2))).length

/-- Concrete example: a MultiIndex with one sub-index of dimension 1,
zero hyperplanes, holding item keys 0 and 1 in its single bucket. -/
def mI : MultiIndex ℕ := ⟨[⟨[], [([], [0, 1])], 1⟩]⟩

/-- Concrete measured-average realisation: 10 at plane count 252, 11 at
253, 5 elsewhere. -/
def avgOf3 : ℕ → ℚ := fun p => if p = 252 then 10 else if p = 253 then 11 else 5

/-- Concrete measured-average realisation: 11 at plane count 253, 5
elsewhere. -/
def avgW : ℕ → ℚ := fun p => if p = 253 then 11 else 5

/-! ### Lemmas about `insertGroup` and `add` -/

lemma insertGroup_sumLen (k : K) (bits : List Bool)
    (gs : List (List Bool × List K)) :
    ((insertGroup k bits gs).map (fun p => p.2.length)).sum
      = (gs.map (fun p => p.2.length)).sum + 1 := by
  induction gs with
  | nil => simp [insertGroup]
  | cons hd tl ih =>
    obtain ⟨b, ks⟩ := hd
    by_cases h : b = bits
    · simp [insertGroup, h]
      omega
    · simp [insertGroup, h, ih]
      omega

lemma add_eq_some {idx idx' : HyperIndex K} {k : K} {v : Vec}
    (h : idx.add k v = some idx') :
    idx'.planes = idx.planes ∧ idx'.dims = idx.dims ∧
      ∃ bits, idx.key v = some bits ∧ idx'.groups = insertGroup k bits idx.groups := by
  unfold HyperIndex.add at h
  cases hk : idx.key v with
  | none => rw [hk] at h; simp at h
  | some bits =>
    rw [hk] at h
    simp only [Option.map_some', Option.some.injEq] at h
    subst h
    exact ⟨rfl, rfl, bits, rfl, rfl⟩

lemma sumSizes_add {idx idx' : HyperIndex K} {k : K} {v : Vec}
    (h : idx.add k v = some idx') : sumSizes idx' = sumSizes idx + 1 := by
  obtain ⟨-, -, bits, -, hg⟩ := add_eq_some h
  unfold sumSizes
  rw [hg, insertGroup_sumLen]

lemma addAll_planes {idx idx' : HyperIndex K} {items : List (K × Vec)}
    (h : addAll idx items = some idx') : idx'.planes = idx.planes := by
  induction items generalizing idx with
  | nil => simp only [addAll, Option.some.injEq] at h; rw [h]
  | cons hd tl ih =>
    obtain ⟨k, v⟩ := hd
    simp only [addAll] at h
    cases ha : idx.add k v with
    | none => rw [ha] at h; simp at h
    | some idx1 =>
      rw [ha] at h
      simp only [Option.some_bind] at h
      rw [ih h, (add_eq_some ha).1]

lemma sumSizes_addAll {idx idx' : HyperIndex K} {items : List (K × Vec)}
    (h : addAll idx items = some idx') :
    sumSizes idx' = sumSizes idx + items.length := by
  induction items generalizing idx with
  | nil => simp only [addAll, Option.some.injEq] at h; rw [h]; simp
  | cons hd tl ih =>
    obtain ⟨k, v⟩ := hd
    simp only [addAll] at h
    cases ha : idx.add k v with
    | none => rw [ha] at h; simp at h
    | some idx1 =>
      rw [ha] at h
      simp only [Option.some_bind] at h
      rw [ih h, sumSizes_add ha]
      simp only [List.length_cons]
      omega

lemma key_congr {idx idx' : HyperIndex K} (v : Vec)
    (h : idx'.planes = idx.planes) : idx'.key v = idx.key v := by
  unfold HyperIndex.key
  rw [h]

lemma insertGroup_self_mem (k : K) (bits : List Bool)
    (gs : List (List Bool × List K)) :
    ∃ ks, (insertGroup k bits gs).find? (fun p => p.1 == bits)
        = some (bits, ks) ∧ k ∈ ks := by
  induction gs with
  | nil =>
    refine ⟨[k], ?_, by simp⟩
    simp [insertGroup]
  | cons hd tl ih =>
    obtain ⟨b, ks⟩ := hd
    by_cases h : b = bits
    · subst h
      refine ⟨ks ++ [k], ?_, by simp⟩
      simp [insertGroup]
    · obtain ⟨ks', hfind, hkmem⟩ := ih
      refine ⟨ks', ?_, hkmem⟩
      rw [insertGroup, if_neg h, List.find?_cons_of_neg, hfind]
      simpa using h

lemma insertGroup_mem_mono {x : K} (k : K) (bits bk : List Bool)
    (gs : List (List Bool × List K))
    (h : ∃ ks, (gs.find? (fun p => p.1 == bk)).map Prod.snd = some ks ∧ x ∈ ks) :
    ∃ ks, ((insertGroup k bits gs).find? (fun p => p.1 == bk)).map Prod.snd
        = some ks ∧ x ∈ ks := by
  induction gs with
  | nil => simp at h
  | cons hd tl ih =>
    obtain ⟨b, ks⟩ := hd
    by_cases hb : (b == bk) = true
    · rw [List.find?_cons_of_pos (p := fun (q : List Bool × List K) => q.1 == bk) _ hb] at h
      simp only [Option.map_some', Option.some.injEq] at h
      obtain ⟨ks', hks', hx⟩ := h
      by_cases him : b = bits
      · subst him
        refine ⟨ks ++ [k], ?_, ?_⟩
        · rw [insertGroup, if_pos rfl, List.find?_cons_of_pos (p := fun (q : List Bool × List K) => q.1 == bk) _ hb]
          simp
        · subst hks'
          exact List.mem_append_left _ hx
      · refine ⟨ks', ?_, hx⟩
        rw [insertGroup, if_neg him, List.find?_cons_of_pos (p := fun (q : List Bool × List K) => q.1 == bk) _ hb]
        simp [hks']
    · rw [List.find?_cons_of_neg (p := fun (q : List Bool × List K) => q.1 == bk) _ hb] at h
      by_cases him : b = bits
      · subst him
        obtain ⟨ks', hfind, hx⟩ := h
        refine ⟨ks', ?_, hx⟩
        rw [insertGroup, if_pos rfl, List.find?_cons_of_neg (p := fun (q : List Bool × List K) => q.1 == bk) _ hb]
        exact hfind
      · obtain ⟨ks', hfind, hx⟩ := ih h
        refine ⟨ks', ?_, hx⟩
        rw [insertGroup, if_neg him, List.find?_cons_of_neg (p := fun (q : List Bool × List K) => q.1 == bk) _ hb]
        exact hfind

lemma group_mem_add {idx idx' : HyperIndex K} {k x : K} {v : Vec} {bk : List Bool}
    (h : idx.add k v = some idx')
    (hx : ∃ ks, idx.group bk = some ks ∧ x ∈ ks) :
    ∃ ks, idx'.group bk = some ks ∧ x ∈ ks := by
  obtain ⟨-, -, bits, -, hg⟩ := add_eq_some h
  unfold HyperIndex.group at hx ⊢
  rw [hg]
  exact insertGroup_mem_mono k bits bk idx.groups hx

lemma group_mem_addAll {idx idx' : HyperIndex K} {x : K} {bk : List Bool}
    {items : List (K × Vec)} (h : addAll idx items = some idx')
    (hx : ∃ ks, idx.group bk = some ks ∧ x ∈ ks) :
    ∃ ks, idx'.group bk = some ks ∧ x ∈ ks := by
  induction items generalizing idx with
  | nil => simp only [addAll, Option.some.injEq] at h; rw [← h]; exact hx
  | cons hd tl ih =>
    obtain ⟨k, v⟩ := hd
    simp only [addAll] at h
    cases ha : idx.add k v with
    | none => rw [ha] at h; simp at h
    | some idx1 =>
      rw [ha] at h
      simp only [Option.some_bind] at h
      exact ih h (group_mem_add ha hx)

lemma insertGroup_keys_nonempty {k : K} {bits : List Bool}
    {gs : List (List Bool × List K)} (h : ∀ g ∈ gs, g.2 ≠ []) :
    ∀ g ∈ insertGroup k bits gs, g.2 ≠ [] := by
  induction gs with
  | nil => simp [insertGroup]
  | cons hd tl ih =>
    obtain ⟨b, ks⟩ := hd
    intro g hg
    by_cases hb : b = bits
    · rw [insertGroup, if_pos hb] at hg
      rcases List.mem_cons.mp hg with hg | hg
      · subst hg; simp
      · exact h g (List.mem_cons_of_mem _ hg)
    · rw [insertGroup, if_neg hb] at hg
      rcases List.mem_cons.mp hg with hg | hg
      · subst hg; exact h _ (List.mem_cons_self _ _)
      · exact ih (fun g' hg' => h g' (List.mem_cons_of_mem _ hg')) g hg

lemma addAll_keys_nonempty {idx idx' : HyperIndex K} {items : List (K × Vec)}
    (h : addAll idx items = some idx') (h0 : ∀ g ∈ idx.groups, g.2 ≠ []) :
    ∀ g ∈ idx'.groups, g.2 ≠ [] := by
  induction items generalizing idx with
  | nil => simp only [addAll, Option.some.injEq] at h; rw [← h]; exact h0
  | cons hd tl ih =>
    obtain ⟨k, v⟩ := hd
    simp only [addAll] at h
    cases ha : idx.add k v with
    | none => rw [ha] at h; simp at h
    | some idx1 =>
      rw [ha] at h
      simp only [Option.some_bind] at h
      obtain ⟨-, -, bits, -, hg⟩ := add_eq_some ha
      refine ih h ?_
      rw [hg]
      exact insertGroup_keys_nonempty h0

/-! ### Lemmas about `key` and `mapM` -/

lemma mapM_dot_bits (ps : List Vec) (v : Vec)
    (hp : ∀ p ∈ ps, p.length = v.length) :
    ps.mapM (fun p => (dot p v).map (fun d => decide (0 < d)))
      = some (ps.map (fun p => decide (0 < dotVal p v))) := by
  induction ps with
  | nil => rfl
  | cons hd tl ih =>
    have hd_dot : dot hd v = some (dotVal hd v) := by
      unfold dot
      rw [if_pos (hp hd (List.mem_cons_self _ _))]
    rw [List.mapM_cons, hd_dot]
    rw [ih (fun p hpmem => hp p (List.mem_cons_of_mem _ hpmem))]
    rfl

lemma key_eq_map (idx : HyperIndex K) (v : Vec)
    (hp : ∀ p ∈ idx.planes, p.length = v.length) :
    idx.key v = some (idx.planes.map (fun p => decide (0 < dotVal p v))) :=
  mapM_dot_bits idx.planes v hp

lemma mapM_isSome_of_all {α β : Type} (f : α → Option β) (l : List α)
    (h : ∀ a ∈ l, (f a).isSome) : (l.mapM f).isSome := by
  induction l with
  | nil => rfl
  | cons hd tl ih =>
    rw [List.mapM_cons]
    cases hf : f hd with
    | none =>
      have := h hd (List.mem_cons_self _ _)
      rw [hf] at this
      simp at this
    | some b =>
      have htl := ih (fun a ha => h a (List.mem_cons_of_mem _ ha))
      cases htm : tl.mapM f with
      | none => rw [htm] at htl; simp at htl
      | some bs => simp [htm]

lemma mapM_eq_none_of_mem {α β : Type} (f : α → Option β) (l : List α)
    (a : α) (ha : a ∈ l) (hf : f a = none) : l.mapM f = none := by
  induction l with
  | nil => simp at ha
  | cons hd tl ih =>
    rw [List.mapM_cons]
    rcases List.mem_cons.mp ha with h | h
    · subst h
      rw [hf]
      rfl
    · cases hfh : f hd with
      | none => rfl
      | some b =>
        rw [show tl.mapM f = none from ih h]
        rfl

lemma key_eq_none_of_dim_mismatch (idx : HyperIndex K) (v : Vec)
    (hne : idx.planes ≠ []) (hp : ∀ p ∈ idx.planes, p.length = idx.dims)
    (hv : v.length ≠ idx.dims) : idx.key v = none := by
  obtain ⟨p0, ps, hcons⟩ := List.exists_cons_of_ne_nil hne
  unfold HyperIndex.key
  refine mapM_eq_none_of_mem _ _ p0 (by rw [hcons]; exact List.mem_cons_self _ _) ?_
  have hlen : p0.length = idx.dims := hp p0 (by rw [hcons]; exact List.mem_cons_self _ _)
  unfold dot
  rw [if_neg]
  · rfl
  · omega

/-! ### Hamming distance and `vary_key` -/

lemma hammingDist_nil : hammingDist [] [] = 0 := rfl

lemma hammingDist_cons (a b : Bool) (as bs : List Bool) :
    hammingDist (a :: as) (b :: bs)
      = (if a = b then 0 else 1) + hammingDist as bs := by
  unfold hammingDist
  by_cases h : a = b
  · subst h
    simp [List.filter, List.zip]
  · have hne : (a == b) = false := by simpa using h
    simp [List.filter, List.zip, hne, h]
    omega

lemma hammingDist_self (l : List Bool) : hammingDist l l = 0 := by
  induction l with
  | nil => rfl
  | cons a as ih => rw [hammingDist_cons, ih]; simp

lemma eq_of_hammingDist_zero (a b : List Bool) (hlen : a.length = b.length)
    (h : hammingDist a b = 0) : a = b := by
  induction a generalizing b with
  | nil =>
    cases b with
    | nil => rfl
    | cons hd tl => simp at hlen
  | cons x as ih =>
    cases b with
    | nil => simp at hlen
    | cons y bs =>
      rw [hammingDist_cons] at h
      by_cases hxy : x = y
      · subst hxy
        rw [if_pos rfl] at h
        simp only [List.length_cons, Nat.add_right_cancel_iff] at hlen
        rw [ih bs hlen (by omega)]
      · rw [if_neg hxy] at h
        omega

lemma hammingDist_set (l : List Bool) (i : ℕ) (h : i < l.length) :
    hammingDist (l.set i (! l.getD i false)) l = 1 := by
  induction l generalizing i with
  | nil => simp at h
  | cons a as ih =>
    cases i with
    | zero =>
      simp only [List.set, List.getD, List.getElem?_cons_zero, Option.getD_some]
      rw [hammingDist_cons, if_neg (by cases a <;> simp), hammingDist_self]
    | succ n =>
      simp only [List.set, List.getD, List.getElem?_cons_succ]
      rw [hammingDist_cons, if_pos rfl]
      have := ih n (by simpa using h)
      simpa [List.getD] using this

lemma exists_set_of_hammingDist_one (a b : List Bool)
    (hlen : a.length = b.length) (h : hammingDist a b = 1) :
    ∃ i, i < b.length ∧ a = b.set i (! b.getD i false) := by
  induction a generalizing b with
  | nil =>
    cases b with
    | nil => simp [hammingDist_nil] at h
    | cons hd tl => simp at hlen
  | cons x as ih =>
    cases b with
    | nil => simp at hlen
    | cons y bs =>
      simp only [List.length_cons, Nat.add_right_cancel_iff] at hlen
      rw [hammingDist_cons] at h
      by_cases hxy : x = y
      · subst hxy
        rw [if_pos rfl] at h
        obtain ⟨i, hi, heq⟩ := ih bs hlen (by omega)
        refine ⟨i + 1, by simpa using hi, ?_⟩
        rw [List.getD_cons_succ, List.set_cons_succ, ← heq]
      · rw [if_neg hxy] at h
        have h0 : hammingDist as bs = 0 := by omega
        have : as = bs := eq_of_hammingDist_zero as bs hlen h0
        subst this
        refine ⟨0, by simp, ?_⟩
        rw [List.getD_cons_zero, List.set_cons_zero]
        have : x = ! y := by cases x <;> cases y <;> simp_all
        rw [this]

lemma mem_vary_key (vk kb : List Bool) :
    vk ∈ vary_key kb
      ↔ (vk = kb ∨ (vk.length = kb.length ∧ hammingDist vk kb = 1)) := by
  unfold vary_key
  constructor
  · intro h
    rcases List.mem_cons.mp h with h | h
    · exact Or.inl h
    · obtain ⟨i, hi, heq⟩ := List.mem_map.mp h
      have hilt : i < kb.length := List.mem_range.mp hi
      subst heq
      refine Or.inr ⟨by simp, hammingDist_set kb i hilt⟩
  · intro h
    rcases h with h | ⟨hlen, hham⟩
    · exact h ▸ List.mem_cons_self _ _
    · obtain ⟨i, hi, heq⟩ := exists_set_of_hammingDist_one vk kb hlen hham
      refine List.mem_cons_of_mem _ (List.mem_map.mpr ⟨i, List.mem_range.mpr hi, heq.symm⟩)

/-! ### Membership in the candidate list -/

lemma mem_flatten_of_mapM {α β : Type} (f : α → Option (List β)) :
    ∀ (l : List α) (L : List (List β)), l.mapM f = some L →
      ∀ x, (x ∈ L.flatten ↔ ∃ a ∈ l, ∃ bl, f a = some bl ∧ x ∈ bl) := by
  intro l
  induction l with
  | nil =>
    intro L hL x
    simp only [List.mapM_nil] at hL
    cases hL
    simp
  | cons hd tl ih =>
    intro L hL x
    rw [List.mapM_cons] at hL
    cases hf : f hd with
    | none => rw [hf] at hL; simp at hL
    | some bl =>
      rw [hf] at hL
      cases htl : tl.mapM f with
      | none => rw [htl] at hL; simp at hL
      | some Ltl =>
        rw [htl] at hL
        simp only [Option.pure_def, Option.bind_eq_bind, Option.some_bind,
          Option.some.injEq] at hL
        subst hL
        simp only [List.flatten_cons, List.mem_append, ih Ltl htl x,
          List.mem_cons]
        constructor
        · rintro (hx | ⟨a, ha, bl', hbl', hx⟩)
          · exact ⟨hd, Or.inl rfl, bl, hf, hx⟩
          · exact ⟨a, Or.inr ha, bl', hbl', hx⟩
        · rintro ⟨a, (rfl | ha), bl', hbl', hx⟩
          · rw [hf] at hbl'
            cases hbl'
            exact Or.inl hx
          · exact Or.inr ⟨a, ha, bl', hbl', hx⟩

lemma mem_candidates_iff [DecidableEq K] (m : MultiIndex K) (point : Vec)
    (cl : List K) (hc : m.candidates point = some cl) (x : K) :
    x ∈ cl ↔ ∃ idx ∈ m.indices, ∃ kb, idx.key point = some kb ∧
      ∃ vk ∈ vary_key kb, x ∈ (idx.group vk).getD [] := by
  unfold MultiIndex.candidates at hc
  cases hM : m.indices.mapM (fun (idx : HyperIndex K) =>
      (idx.key point).map (fun kb =>
        ((vary_key kb).map (fun vk => (idx.group vk).getD [])).flatten)) with
  | none => rw [hM] at hc; simp at hc
  | some L =>
    rw [hM] at hc
    simp only [Option.map_some', Option.some.injEq] at hc
    subst hc
    rw [mem_flatten_of_mapM _ m.indices L hM x]
    constructor
    · rintro ⟨idx, hidx, bl, hbl, hx⟩
      cases hk : idx.key point with
      | none => rw [hk] at hbl; simp at hbl
      | some kb =>
        rw [hk] at hbl
        simp only [Option.map_some', Option.some.injEq] at hbl
        subst hbl
        obtain ⟨gl, hgl, hxg⟩ := List.mem_flatten.mp hx
        obtain ⟨vk, hvk, hglv⟩ := List.mem_map.mp hgl
        exact ⟨idx, hidx, kb, hk, vk, hvk, hglv ▸ hxg⟩
    · rintro ⟨idx, hidx, kb, hk, vk, hvk, hx⟩
      refine ⟨idx, hidx, ((vary_key kb).map
        (fun vk => (idx.group vk).getD [])).flatten, by rw [hk]; rfl, ?_⟩
      exact List.mem_flatten.mpr ⟨_, List.mem_map.mpr ⟨vk, hvk, rfl⟩, hx⟩

/-! ### Sorting properties of `nearestOfEnum` -/

lemma nearestOfEnum_props {K : Type} (point : Vec) (count : ℕ)
    (get_dist : Vec → K → ℚ) (enum : List K) (hnd : enum.Nodup) :
    (nearestOfEnum point count get_dist enum).length ≤ count ∧
    List.Sorted (fun a b : K × ℚ => a.2 ≤ b.2)
      (nearestOfEnum point count get_dist enum) ∧
    ((nearestOfEnum point count get_dist enum).map Prod.fst).Nodup := by
  haveI htot : IsTotal (K × ℚ) (fun a b => a.2 ≤ b.2) :=
    ⟨fun a b => le_total a.2 b.2⟩
  haveI htr : IsTrans (K × ℚ) (fun a b => a.2 ≤ b.2) :=
    ⟨fun _ _ _ hab hbc => le_trans hab hbc⟩
  unfold nearestOfEnum
  refine ⟨?_, ?_, ?_⟩
  · rw [List.length_take]
    exact min_le_left _ _
  · exact (List.sorted_insertionSort _ _).sublist (List.take_sublist _ _)
  · have hperm := List.perm_insertionSort (fun a b : K × ℚ => a.2 ≤ b.2)
      (enum.map (fun k => (k, get_dist point k)))
    have hmapfst : ((enum.map (fun k => (k, get_dist point k))).map Prod.fst)
        = enum := by
      rw [List.map_map]
      exact List.map_id _
    have hnd2 : ((List.insertionSort (fun a b : K × ℚ => a.2 ≤ b.2)
        (enum.map (fun k => (k, get_dist point k)))).map Prod.fst).Nodup :=
      ((hperm.map Prod.fst).nodup_iff).mpr (by rw [hmapfst]; exact hnd)
    rw [List.map_take]
    exact hnd2.sublist (List.take_sublist _ _)

/-! ### The autotune search loop -/

lemma autotuneFrom_eq_pickBest (avgOf : ℕ → ℚ) (gs : ℚ) (ps : List ℕ)
    (h : ∀ q ∈ ps, ¬ avgOf q < gs) :
    ∀ (best : ℕ) (bestAvg : Option ℚ),
      autotuneFrom avgOf gs ps best bestAvg
        = pickBest avgOf gs ps best bestAvg := by
  induction ps with
  | nil => intro best bestAvg; rfl
  | cons p rest ih =>
    intro best bestAvg
    have hnp : ¬ avgOf p < gs := h p (List.mem_cons_self _ _)
    have hrest : ∀ q ∈ rest, ¬ avgOf q < gs :=
      fun q hq => h q (List.mem_cons_of_mem _ hq)
    simp only [autotuneFrom, pickBest, if_neg hnp]
    by_cases hI : ((match bestAvg with
        | none => true
        | some b => decide (avgOf p < b)) && decide (gs < avgOf p)) = true
    · rw [if_pos hI, if_pos hI, if_pos hI, ih hrest]
    · rw [if_neg hI, if_neg hI, if_neg hI, ih hrest]

lemma autotuneFrom_split (avgOf : ℕ → ℚ) (gs : ℚ) (p : ℕ) (post : List ℕ)
    (hp : avgOf p < gs) :
    ∀ (pre : List ℕ), (∀ q ∈ pre, ¬ avgOf q < gs) →
      ∀ (best : ℕ) (bestAvg : Option ℚ),
        autotuneFrom avgOf gs (pre ++ p :: post) best bestAvg
          = pickBest avgOf gs pre best bestAvg := by
  intro pre
  induction pre with
  | nil =>
    intro _ best bestAvg
    have hfalse : decide (gs < avgOf p) = false := by
      simp [not_lt.mpr (le_of_lt hp)]
    simp only [List.nil_append, autotuneFrom, pickBest, hfalse,
      Bool.and_false, Bool.false_eq_true, if_false, if_pos hp]
  | cons q pre ih =>
    intro hpre best bestAvg
    have hnq : ¬ avgOf q < gs := hpre q (List.mem_cons_self _ _)
    have hrest : ∀ r ∈ pre, ¬ avgOf r < gs :=
      fun r hr => hpre r (List.mem_cons_of_mem _ hr)
    simp only [List.cons_append, autotuneFrom, pickBest, if_neg hnq]
    by_cases hI : ((match bestAvg with
        | none => true
        | some b => decide (avgOf q < b)) && decide (gs < avgOf q)) = true
    · rw [if_pos hI, if_pos hI, if_pos hI]
      exact ih hrest _ _
    · rw [if_neg hI, if_neg hI, if_neg hI]
      exact ih hrest _ _

/-! ### The degenerate H = 0 index -/

lemma key_of_no_planes (idx : HyperIndex K) (v : Vec) (hpl : idx.planes = []) :
    idx.key v = some [] := by
  unfold HyperIndex.key
  rw [hpl]
  rfl

lemma addAll_h0 {idx idx' : HyperIndex K} {items : List (K × Vec)}
    (h : addAll idx items = some idx') (hpl : idx.planes = [])
    (hlen : idx.groups.length ≤ 1) (hkeys : ∀ g ∈ idx.groups, g.1 = []) :
    idx'.groups.length ≤ 1 ∧ ∀ g ∈ idx'.groups, g.1 = [] := by
  induction items generalizing idx with
  | nil =>
    simp only [addAll, Option.some.injEq] at h
    rw [← h]
    exact ⟨hlen, hkeys⟩
  | cons hd tl ih =>
    obtain ⟨k, v⟩ := hd
    simp only [addAll] at h
    cases ha : idx.add k v with
    | none => rw [ha] at h; simp at h
    | some idx1 =>
      rw [ha] at h
      simp only [Option.some_bind] at h
      obtain ⟨hpl1, -, bits, hkey, hg⟩ := add_eq_some ha
      rw [key_of_no_planes idx v hpl] at hkey
      cases hkey
      refine ih h (hpl1.trans hpl) ?_ ?_
      · rw [hg]
        cases hgs : idx.groups with
        | nil => simp [insertGroup]
        | cons g0 gs =>
          obtain ⟨b0, ks0⟩ := g0
          have hb0 : b0 = [] := by
            have := hkeys (b0, ks0) (by rw [hgs]; exact List.mem_cons_self _ _)
            simpa using this
          subst hb0
          rw [insertGroup, if_pos rfl]
          rw [hgs] at hlen
          simpa using hlen
      · rw [hg]
        cases hgs : idx.groups with
        | nil =>
          simp [insertGroup]
        | cons g0 gs =>
          obtain ⟨b0, ks0⟩ := g0
          have hb0 : b0 = [] := by
            have := hkeys (b0, ks0) (by rw [hgs]; exact List.mem_cons_self _ _)
            simpa using this
          subst hb0
          rw [insertGroup, if_pos rfl]
          intro g hgmem
          rcases List.mem_cons.mp hgmem with hgm | hgm
          · rw [hgm]
          · exact hkeys g (by rw [hgs]; exact List.mem_cons_of_mem _ hgm)

/-! ### Claim theorems -/

/-- C1 (amended): for every MultiIndex state, query point, requested count
and distance function, and every enumeration of the candidate set, the
list returned by `nearest` has length at most `count`, its entries are in
non-decreasing (ascending with ties allowed) order of distance, and no
item key occurs in it more than once. -/
theorem C1_nearest_props [DecidableEq K] (m : MultiIndex K) (point : Vec)
    (count : ℕ) (get_dist : Vec → K → ℚ) (cl enum : List K)
    (hc : m.candidates point = some cl) (he : IsEnumOf enum cl) :
    (nearestOfEnum point count get_dist enum).length ≤ count ∧
    List.Sorted (fun a b : K × ℚ => a.2 ≤ b.2)
      (nearestOfEnum point count get_dist enum) ∧
    ((nearestOfEnum point count get_dist enum).map Prod.fst).Nodup :=
  nearestOfEnum_props point count get_dist enum he.1

/-- Witness for C1: a MultiIndex with one sub-index, no hyperplanes, and
items 0, 1 in its single bucket. -/
theorem C1_witness :
    (nearestOfEnum [1] 2 (fun _ _ => (0:ℚ)) [0, 1]).length ≤ 2 ∧
    List.Sorted (fun a b : ℕ × ℚ => a.2 ≤ b.2)
      (nearestOfEnum [1] 2 (fun _ _ => (0:ℚ)) [0, 1]) ∧
    ((nearestOfEnum [1] 2 (fun _ _ => (0:ℚ)) [0, 1]).map Prod.fst).Nodup :=
  C1_nearest_props mI [1] 2 (fun _ _ => (0:ℚ)) [0, 1] [0, 1] rfl
    ⟨by decide, fun k => Iff.rfl⟩

/-- C1 as stated is false: with two items at equal distance from the query
(constant distance function), `nearest` returns both with the same
distance, so the result is not STRICTLY ascending by distance. -/
theorem C1_counterexample :
    mI.candidates [1] = some [0, 1] ∧ IsEnumOf [0, 1] [0, 1] ∧
    ¬ List.Sorted (fun a b : ℕ × ℚ => a.2 < b.2)
        (nearestOfEnum [1] 2 (fun _ _ => (0:ℚ)) [0, 1]) := by
  refine ⟨rfl, ⟨by decide, fun k => Iff.rfl⟩, ?_⟩
  intro hsorted
  have heq : nearestOfEnum [1] 2 (fun _ _ => (0:ℚ)) [0, 1]
      = [(0, 0), (1, 0)] := rfl
  rw [heq] at hsorted
  have hlt := List.rel_of_sorted_cons hsorted (1, 0) (by simp)
  exact absurd hlt (by norm_num)

/-- C2: for every MultiIndex state and query point, the candidate set of
`nearest_points_set` is exactly the deduplicated union, over all
sub-indices, of the bucket of the exact key of the point and the buckets
of every key at Hamming distance 1 from it; each distinct key appears
once in the set and is scored at most once during `nearest`. -/
theorem C2_candidate_set_characterization [DecidableEq K] (m : MultiIndex K)
    (point : Vec) (cl : List K) (get_dist : Vec → K → ℚ) (enum : List K)
    (hc : m.candidates point = some cl) (he : IsEnumOf enum cl) :
    m.nearest_points_set point = some cl.toFinset ∧
    (∀ x : K, x ∈ cl.toFinset ↔ ∃ idx ∈ m.indices, ∃ kb,
        idx.key point = some kb ∧ ∃ vk,
          (vk = kb ∨ (vk.length = kb.length ∧ hammingDist vk kb = 1)) ∧
          x ∈ (idx.group vk).getD []) ∧
    ((enum.map (fun k => (k, get_dist point k))).map Prod.fst).Nodup := by
  refine ⟨?_, ?_, ?_⟩
  · unfold MultiIndex.nearest_points_set
    rw [hc]
    rfl
  · intro x
    rw [List.mem_toFinset, mem_candidates_iff m point cl hc x]
    constructor
    · rintro ⟨idx, hidx, kb, hk, vk, hvk, hx⟩
      exact ⟨idx, hidx, kb, hk, vk, (mem_vary_key vk kb).mp hvk, hx⟩
    · rintro ⟨idx, hidx, kb, hk, vk, hcond, hx⟩
      exact ⟨idx, hidx, kb, hk, vk, (mem_vary_key vk kb).mpr hcond, hx⟩
  · have hmap : ((enum.map (fun k => (k, get_dist point k))).map Prod.fst)
        = enum := by
      rw [List.map_map]
      exact List.map_id _
    rw [hmap]
    exact he.1

/-- Witness for C2. -/
theorem C2_witness :
    mI.nearest_points_set [1] = some ([0, 1] : List ℕ).toFinset :=
  (C2_candidate_set_characterization mI [1] [0, 1] (fun _ _ => (0:ℚ)) [0, 1]
    rfl ⟨by decide, fun k => Iff.rfl⟩).1

/-- C3: starting from a fresh HyperIndex, after any sequence of N
successful `add` calls the sum of all bucket sizes equals N. -/
theorem C3_sum_bucket_sizes (planes : List Vec) (dims : ℕ)
    (items : List (K × Vec)) (idx' : HyperIndex K)
    (h : addAll (HyperIndex.new planes dims) items = some idx') :
    sumSizes idx' = items.length := by
  rw [sumSizes_addAll h]
  simp [sumSizes, HyperIndex.new]

/-- Witness for C3: two inserts into a 1-plane index land in two buckets
summing to 2. -/
theorem C3_witness :
    sumSizes (⟨[[1]], [([true], [0]), ([false], [1])], 1⟩ : HyperIndex ℕ)
      = 2 :=
  C3_sum_bucket_sizes [[1]] 1 [(0, [1]), (1, [-1])]
    (⟨[[1]], [([true], [0]), ([false], [1])], 1⟩ : HyperIndex ℕ)
    (by norm_num [addAll, HyperIndex.add, HyperIndex.key, HyperIndex.new,
      insertGroup, dot, dotVal, List.zip, List.mapM, List.mapM.loop])

/-- C4: an item key `k` inserted with vector `v` via `add` is contained in
the bucket `group(key(v))` after any sequence of further `add` calls
(items are never removed). -/
theorem C4_added_key_discoverable (idx idx1 idx2 : HyperIndex K) (k : K)
    (v : Vec) (rest : List (K × Vec)) (bits : List Bool)
    (h1 : idx.add k v = some idx1) (h2 : addAll idx1 rest = some idx2)
    (hk : idx2.key v = some bits) :
    ∃ g, idx2.group bits = some g ∧ k ∈ g := by
  obtain ⟨hpl, -, bits0, hkey0, hg⟩ := add_eq_some h1
  have hk2 : idx2.key v = idx.key v := by
    rw [key_congr v (addAll_planes h2), key_congr v hpl]
  rw [hk2, hkey0] at hk
  cases hk
  obtain ⟨ks, hfind, hkm⟩ := insertGroup_self_mem k bits idx.groups
  have hg1 : ∃ ks', idx1.group bits = some ks' ∧ k ∈ ks' := by
    refine ⟨ks, ?_, hkm⟩
    unfold HyperIndex.group
    rw [hg, hfind]
    rfl
  exact group_mem_addAll h2 hg1

/-- Witness for C4. -/
theorem C4_witness :
    ∃ g, (⟨[[1]], [([true], [0]), ([false], [1])], 1⟩ : HyperIndex ℕ).group
        [true] = some g ∧ 0 ∈ g :=
  C4_added_key_discoverable (HyperIndex.new [[1]] 1)
    (⟨[[1]], [([true], [0])], 1⟩ : HyperIndex ℕ)
    (⟨[[1]], [([true], [0]), ([false], [1])], 1⟩ : HyperIndex ℕ)
    0 [1] [(1, [-1])] [true]
    (by norm_num [HyperIndex.add, HyperIndex.key, HyperIndex.new,
      insertGroup, dot, dotVal, List.zip, List.mapM, List.mapM.loop])
    (by norm_num [addAll, HyperIndex.add, HyperIndex.key, insertGroup, dot,
      dotVal, List.zip, List.mapM, List.mapM.loop])
    (by norm_num [HyperIndex.key, dot, dotVal, List.zip, List.mapM,
      List.mapM.loop])

/-- C5 (amended): the search returns immediately at the first candidate
whose measured average occupancy drops STRICTLY BELOW the target,
returning the best strictly-above-target candidate seen before it (the
initial value 0 if none was seen); if no candidate drops strictly below
the target before the ceiling, it returns the best strictly-above-target
candidate over the whole range. -/
theorem C5_autotune_characterization (avgOf : ℕ → ℚ) (gs : ℚ)
    (initial : ℕ) :
    (∀ (pre : List ℕ) (p : ℕ) (post : List ℕ),
        List.range' initial (255 - initial) = pre ++ p :: post →
        (∀ q ∈ pre, ¬ avgOf q < gs) → avgOf p < gs →
        autotune_planes avgOf gs initial = pickBest avgOf gs pre 0 none) ∧
    ((∀ q ∈ List.range' initial (255 - initial), ¬ avgOf q < gs) →
        autotune_planes avgOf gs initial
          = pickBest avgOf gs (List.range' initial (255 - initial)) 0 none) := by
  constructor
  · intro pre p post hsplit hpre hp
    unfold autotune_planes
    rw [hsplit]
    exact autotuneFrom_split avgOf gs p post hp pre hpre 0 none
  · intro h
    unfold autotune_planes
    exact autotuneFrom_eq_pickBest avgOf gs _ h 0 none

/-- Witness for C5: with measured averages 11 at plane count 253 and 5 at
254 and target 10, the loop starting at 253 stops at 254 and returns the
best above-target candidate of the prefix. -/
theorem C5_witness :
    autotune_planes avgW 10 253 = pickBest avgW 10 [253] 0 none :=
  (C5_autotune_characterization avgW 10 253).1 [253] 254 [] rfl
    (by
      intro q hq
      rw [List.mem_singleton] at hq
      subst hq
      norm_num [avgW])
    (by norm_num [avgW])

/-- C5 as stated is false: with measured averages 10, 11, 5 at plane
counts 252, 253, 254 and target 10, the first candidate's average equals
the target ("drops to" it), so the claimed rule returns immediately with
best-so-far 0, but the code's strict `<` comparison continues and
returns 253. -/
theorem C5_counterexample :
    autotune_planes avgOf3 10 252 = 253 ∧
    autotune_planesSpec avgOf3 10 252 = 0 ∧ (253 : ℕ) ≠ 0 :=
  ⟨rfl, rfl, by decide⟩

/-- C6: for every HyperIndex whose hyperplanes all have the index's
dimension and every vector of that dimension, `key` succeeds and returns
a BucketKey of length exactly the number of hyperplanes whose bit `i` is
`dot(plane_i, vector) > 0`; determinism is definitional (`key` is a pure
function of the planes and the vector), stated as the final conjunct. -/
theorem C6_key_spec (idx : HyperIndex K) (v : Vec)
    (hp : ∀ p ∈ idx.planes, p.length = idx.dims) (hv : v.length = idx.dims) :
    ∃ bits, idx.key v = some bits ∧ bits.length = idx.planes.length ∧
      (∀ i : ℕ, bits[i]?
        = (idx.planes[i]?).map (fun p => decide (0 < dotVal p v))) ∧
      idx.key v = idx.key v := by
  refine ⟨idx.planes.map (fun p => decide (0 < dotVal p v)), ?_, by simp,
    ?_, rfl⟩
  · exact key_eq_map idx v (fun p hpm => by rw [hp p hpm, hv])
  · intro i
    exact List.getElem?_map _ _ i

/-- Witness for C6. -/
theorem C6_witness :
    ∃ bits, (⟨[[1]], [], 1⟩ : HyperIndex ℕ).key [2] = some bits ∧
      bits.length = (⟨[[1]], [], 1⟩ : HyperIndex ℕ).planes.length ∧
      (∀ i : ℕ, bits[i]?
        = ((⟨[[1]], [], 1⟩ : HyperIndex ℕ).planes[i]?).map
            (fun p => decide (0 < dotVal p [2]))) ∧
      (⟨[[1]], [], 1⟩ : HyperIndex ℕ).key [2]
        = (⟨[[1]], [], 1⟩ : HyperIndex ℕ).key [2] :=
  C6_key_spec (⟨[[1]], [], 1⟩ : HyperIndex ℕ) [2]
    (by
      intro p hpm
      rw [List.mem_singleton] at hpm
      subst hpm
      rfl)
    rfl

/-- C7 (amended): for every unit vector `a` (`dot(a,a) = 1`),
`modifiedCosineDistance(a, a) = 0`.  (For merely nonzero vectors the
value is `max(0, 1 - dot(a,a))`, which is nonzero when `dot(a,a) < 1`.) -/
theorem C7_unit_self_distance_zero (a : Vec) (h : dotVal a a = 1) :
    modified_cosine_distance a a = some 0 := by
  unfold modified_cosine_distance dot
  rw [if_pos rfl, h]
  norm_num

/-- Witness for C7. -/
theorem C7_witness : modified_cosine_distance [(1:ℚ)] [(1:ℚ)] = some 0 :=
  C7_unit_self_distance_zero [(1:ℚ)] (by norm_num [dotVal, List.zip])

/-- C7 as stated is false: the nonzero (non-unit) vector `[1/2]` has
`modifiedCosineDistance(a, a) = max(0, 2 - (1/4 + 1)) = 3/4 ≠ 0`. -/
theorem C7_counterexample :
    ((1:ℚ)/2 ≠ 0) ∧
    modified_cosine_distance [(1:ℚ)/2] [(1:ℚ)/2] ≠ some 0 := by
  constructor
  · norm_num
  · have hval : modified_cosine_distance [(1:ℚ)/2] [(1:ℚ)/2]
        = some (3/4) := by
      norm_num [modified_cosine_distance, dot, dotVal]
    rw [hval]
    intro hcontra
    rw [Option.some.injEq] at hcontra
    norm_num at hcontra

/-- C8: with zero hyperplanes, `key` returns the empty BucketKey for
every vector, all items land in a single global bucket, and `add`,
`key`, `vary_key` and `nearest` (via `candidates`) complete without
panicking on the empty bit-vector. -/
theorem C8_h0_degenerate [DecidableEq K] (idx : HyperIndex K)
    (m : MultiIndex K) (k : K) (v point : Vec) (items : List (K × Vec))
    (dims : ℕ) (idx' : HyperIndex K)
    (hpl : idx.planes = []) (hm : ∀ i ∈ m.indices, i.planes = [])
    (hadd : addAll (HyperIndex.new (K := K) [] dims) items = some idx') :
    idx.key v = some [] ∧ (idx.add k v).isSome ∧ vary_key [] = [[]] ∧
      (m.candidates point).isSome ∧ idx'.groups.length ≤ 1 := by
  refine ⟨key_of_no_planes idx v hpl, ?_, rfl, ?_, ?_⟩
  · unfold HyperIndex.add
    rw [key_of_no_planes idx v hpl]
    rfl
  · have hS := mapM_isSome_of_all (fun (i : HyperIndex K) =>
        (i.key point).map (fun kb =>
          ((vary_key kb).map (fun vk => (i.group vk).getD [])).flatten))
      m.indices
      (fun i hi => by
        show (Option.map _ (i.key point)).isSome = true
        rw [key_of_no_planes i point (hm i hi)]
        rfl)
    unfold MultiIndex.candidates
    obtain ⟨L, hL⟩ := Option.isSome_iff_exists.mp hS
    rw [hL]
    rfl
  · exact (addAll_h0 hadd rfl (by simp [HyperIndex.new])
      (by simp [HyperIndex.new])).1

/-- Witness for C8. -/
theorem C8_witness :
    (⟨[], [([], [5])], 3⟩ : HyperIndex ℕ).key [1, 2, 3] = some [] ∧
    ((⟨[], [([], [5])], 3⟩ : HyperIndex ℕ).add 7 [1, 2, 3]).isSome ∧
    vary_key [] = [[]] ∧
    (mI.candidates [1]).isSome ∧
    (⟨[], [([], [0, 1])], 1⟩ : HyperIndex ℕ).groups.length ≤ 1 :=
  C8_h0_degenerate (⟨[], [([], [5])], 3⟩ : HyperIndex ℕ) mI 7 [1, 2, 3] [1]
    [(0, [1]), (1, [2])] 1 (⟨[], [([], [0, 1])], 1⟩ : HyperIndex ℕ)
    rfl
    (by
      intro i hi
      rw [show mI.indices = [⟨[], [([], [0, 1])], 1⟩] from rfl,
        List.mem_singleton] at hi
      subst hi
      rfl)
    rfl

/-- C9 (amended): provided the index has at least one hyperplane (and, for
`nearest`, the mismatched sub-index belongs to the MultiIndex), calling
`add`, `key` or `nearest` with a vector whose length differs from the
index's dimension panics (fails fast) rather than silently truncating. -/
theorem C9_mismatch_panics [DecidableEq K] (idx : HyperIndex K) (k : K)
    (v : Vec) (m : MultiIndex K)
    (hne : idx.planes ≠ []) (hp : ∀ p ∈ idx.planes, p.length = idx.dims)
    (hv : v.length ≠ idx.dims) (hmem : idx ∈ m.indices) :
    idx.key v = none ∧ idx.add k v = none ∧ m.candidates v = none := by
  have hkey := key_eq_none_of_dim_mismatch idx v hne hp hv
  refine ⟨hkey, ?_, ?_⟩
  · unfold HyperIndex.add
    rw [hkey]
    rfl
  · unfold MultiIndex.candidates
    rw [mapM_eq_none_of_mem _ m.indices idx hmem (by rw [hkey]; rfl)]
    rfl

/-- Witness for C9. -/
theorem C9_witness :
    (⟨[[1]], [], 1⟩ : HyperIndex ℕ).key [1, 2] = none ∧
    (⟨[[1]], [], 1⟩ : HyperIndex ℕ).add 0 [1, 2] = none ∧
    (⟨[⟨[[1]], [], 1⟩]⟩ : MultiIndex ℕ).candidates [1, 2] = none :=
  C9_mismatch_panics (⟨[[1]], [], 1⟩ : HyperIndex ℕ) 0 [1, 2]
    (⟨[⟨[[1]], [], 1⟩]⟩ : MultiIndex ℕ)
    (by simp)
    (by
      intro p hpm
      rw [List.mem_singleton] at hpm
      subst hpm
      rfl)
    (by simp)
    (List.mem_singleton.mpr rfl)

/-- C9 as stated is false: an index constructed with zero hyperplanes
never calls `dot`, so `key` on a vector of the wrong length (2 instead of
the index's dimension 1) completes normally instead of panicking. -/
theorem C9_counterexample :
    ([1, 2] : Vec).length ≠ (HyperIndex.new (K := ℕ) [] 1).dims ∧
    (HyperIndex.new (K := ℕ) [] 1).key [1, 2] = some [] := by
  constructor
  · simp [HyperIndex.new]
  · rfl

/-- C10: in every HyperIndex state reachable by `add` calls from a fresh
index, every bucket in the map is non-empty; hence `group` returns either
nothing or a non-empty bucket, and `stats` over all map entries coincides
with `stats` over the non-empty buckets. -/
theorem C10_buckets_nonempty (planes : List Vec) (dims : ℕ)
    (items : List (K × Vec)) (idx' : HyperIndex K)
    (h : addAll (HyperIndex.new planes dims) items = some idx') :
    (∀ g ∈ idx'.groups, g.2 ≠ []) ∧
    (∀ bk ks, idx'.group bk = some ks → ks ≠ []) ∧
    idx'.groups.filter (fun g => ! g.2.isEmpty) = idx'.groups ∧
    HyperIndex.stats idx'
      = HyperIndex.stats
          ⟨idx'.planes, idx'.groups.filter (fun g => ! g.2.isEmpty),
            idx'.dims⟩ := by
  have hne : ∀ g ∈ idx'.groups, g.2 ≠ [] :=
    addAll_keys_nonempty h (by simp [HyperIndex.new])
  have hfil : idx'.groups.filter (fun g => ! g.2.isEmpty) = idx'.groups := by
    apply List.filter_eq_self.mpr
    intro g hg
    simpa [List.isEmpty_iff] using hne g hg
  refine ⟨hne, ?_, hfil, ?_⟩
  · intro bk ks hks
    unfold HyperIndex.group at hks
    cases hf : idx'.groups.find? (fun p => p.1 == bk) with
    | none => rw [hf] at hks; simp at hks
    | some pr =>
      rw [hf] at hks
      simp only [Option.map_some', Option.some.injEq] at hks
      have hmem := List.mem_of_find?_eq_some hf
      rw [← hks]
      exact hne pr hmem
  · rw [hfil]

/-- Witness for C10. -/
theorem C10_witness :
    (∀ g ∈ (⟨[[1]], [([true], [0])], 1⟩ : HyperIndex ℕ).groups, g.2 ≠ []) ∧
    (∀ bk ks, (⟨[[1]], [([true], [0])], 1⟩ : HyperIndex ℕ).group bk
        = some ks → ks ≠ []) ∧
    (⟨[[1]], [([true], [0])], 1⟩ : HyperIndex ℕ).groups.filter
        (fun g => ! g.2.isEmpty)
      = (⟨[[1]], [([true], [0])], 1⟩ : HyperIndex ℕ).groups ∧
    HyperIndex.stats (⟨[[1]], [([true], [0])], 1⟩ : HyperIndex ℕ)
      = HyperIndex.stats
          ⟨[[1]], ([([true], [0])] : List (List Bool × List ℕ)).filter
              (fun g => ! g.2.isEmpty), 1⟩ :=
  C10_buckets_nonempty [[1]] 1 [(0, [1])]
    (⟨[[1]], [([true], [0])], 1⟩ : HyperIndex ℕ)
    (by norm_num [addAll, HyperIndex.add, HyperIndex.key, HyperIndex.new,
      insertGroup, dot, dotVal, List.zip, List.mapM, List.mapM.loop])

end Hypernonsense
